import Mathlib

/-!
Verification of the SP raspberry client and controller.

This file shallowly embeds the logic of `raspberry/client.py`
(e-paper rendering, Morse encoding/blinking) and `raspberry/controller.py`
(command-queue actuation, stepper phase sequencing) and proves the spec's
claims about them.  Machine side effects (GPIO writes, PIL drawing, the
panel driver) are modelled as data: a render is the list of drawing
operations it performs, a blink run is the timed on/off trace it emits.
-/

namespace SP

/-! ## Morse timing constants (client.py, `UNIT` .. `GAP_WORD`)

The source's base quantum is `UNIT = 0.25` seconds and every duration it
uses is an exact integer multiple of it, so time is modelled in ℕ as a
count of `UNIT`s. -/

def UNIT : ℕ := 1

def DOT : ℕ := UNIT

def DASH : ℕ := 3 * UNIT

def GAP_SYMBOL : ℕ := UNIT

def GAP_LETTER : ℕ := 3 * UNIT

def GAP_WORD : ℕ := 7 * UNIT

/-! ## Morse digit table (client.py, `MORSE_DIGITS`) -/

/-- The digit→Morse dictionary; `none` models a missing key. -/
def MORSE_DIGITS (c : Char) : Option String :=
  if c = '0' then some "-----"
  else if c = '1' then some ".----"
  else if c = '2' then some "..---"
  else if c = '3' then some "...--"
  else if c = '4' then some "....-"
  else if c = '5' then some "....."
  else if c = '6' then some "-...."
  else if c = '7' then some "--..."
  else if c = '8' then some "---.."
  else if c = '9' then some "----."
  else none

/-- `MORSE_DIGITS.get(d, "")` from the source, as a list of symbol chars. -/
def codeOf (c : Char) : List Char :=
  ((MORSE_DIGITS c).getD "").toList

/-! ## Decimal digit string (the source's `str(number)`) -/

/-- Most-significant-first decimal digits; fuel-structured so the kernel
can evaluate it (fuel `n` suffices since `n/10 < n`). -/
def decDigitsAux : ℕ → ℕ → List ℕ
  | 0, _ => []
  | _ + 1, 0 => []
  | fuel + 1, n + 1 => decDigitsAux fuel ((n + 1) / 10) ++ [(n + 1) % 10]

/-- Decimal digits of `n`, most significant first; `0` renders as `[0]`,
mirroring Python's `str(0) = "0"`. -/
def decDigits (n : ℕ) : List ℕ :=
  if n = 0 then [0] else decDigitsAux n n

def digitChar (m : ℕ) : Char := Char.ofNat (48 + m)

/-- The character list of Python's `str(number)`. -/
def strOfNat (n : ℕ) : List Char := (decDigits n).map digitChar

/-! ## `MorseBlinker._number_to_morse_sequence` -/

/-- The enumerate loop: each digit contributes its code, and every digit
except the last is followed by the `' '` inter-digit gap. -/
def morseJoin : List Char → List Char
  | [] => []
  | [d] => codeOf d
  | d :: rest => codeOf d ++ ' ' :: morseJoin rest

/-- `MorseBlinker._number_to_morse_sequence(number)`: the flat symbol list,
terminated by the `'/'` word gap. -/
def numberToMorseSequence (number : ℕ) : List Char :=
  morseJoin (strOfNat number) ++ ['/']

/-! ## Basic digit facts -/

theorem decDigitsAux_lt : ∀ fuel n, ∀ d ∈ decDigitsAux fuel n, d < 10
  | 0, _ => by simp [decDigitsAux]
  | _ + 1, 0 => by simp [decDigitsAux]
  | fuel + 1, n + 1 => by
    intro d hd
    simp only [decDigitsAux, List.mem_append, List.mem_singleton] at hd
    rcases hd with hd | hd
    · exact decDigitsAux_lt fuel ((n + 1) / 10) d hd
    · subst hd; exact Nat.mod_lt _ (by norm_num)

theorem decDigits_lt (n : ℕ) : ∀ d ∈ decDigits n, d < 10 := by
  intro d hd
  unfold decDigits at hd
  split at hd
  · simp at hd; omega
  · exact decDigitsAux_lt n n d hd

theorem decDigits_ne_nil (n : ℕ) : decDigits n ≠ [] := by
  unfold decDigits
  split
  · simp
  · rename_i h
    obtain ⟨m, rfl⟩ : ∃ m, n = m + 1 := ⟨n - 1, by omega⟩
    cases m with
    | zero => simp [decDigitsAux]
    | succ k => simp [decDigitsAux]

theorem strOfNat_mem (n : ℕ) : ∀ c ∈ strOfNat n, ∃ m, m < 10 ∧ c = digitChar m := by
  intro c hc
  unfold strOfNat at hc
  obtain ⟨m, hm, rfl⟩ := List.mem_map.mp hc
  exact ⟨m, decDigits_lt n m hm, rfl⟩

theorem strOfNat_ne_nil (n : ℕ) : strOfNat n ≠ [] := by
  unfold strOfNat
  simp [decDigits_ne_nil n]

/-- Table facts for actual digit characters: each code has length 5,
contains only `'.'`/`'-'`, and no gap characters. -/
theorem codeOf_digitChar (m : ℕ) (hm : m < 10) :
    (codeOf (digitChar m)).length = 5 ∧
    (∀ e ∈ codeOf (digitChar m), e = '.' ∨ e = '-') ∧
    (codeOf (digitChar m)).count ' ' = 0 ∧
    (codeOf (digitChar m)).count '/' = 0 := by
  interval_cases m <;> exact ⟨by decide, by decide, by decide, by decide⟩

/-! ## Structure of the encoded sequence -/

theorem morseJoin_eq_intersperse : ∀ ds : List Char,
    morseJoin ds = (List.intersperse [' '] (ds.map codeOf)).flatten
  | [] => by simp [morseJoin]
  | [d] => by simp [morseJoin]
  | d :: e :: rest => by
    have ih := morseJoin_eq_intersperse (e :: rest)
    show codeOf d ++ ' ' :: morseJoin (e :: rest)
        = (List.intersperse [' '] (codeOf d :: (e :: rest).map codeOf)).flatten
    rw [ih]
    simp only [List.map_cons, List.intersperse_cons_cons, List.flatten_cons]
    simp

theorem morseJoin_count_space : ∀ ds : List Char,
    (∀ d ∈ ds, (codeOf d).count ' ' = 0) →
    (morseJoin ds).count ' ' = ds.length - 1
  | [] => by simp [morseJoin]
  | [d] => by
    intro h
    simp [morseJoin, h d (by simp)]
  | d :: e :: rest => by
    intro h
    have ih := morseJoin_count_space (e :: rest) (fun x hx => h x (by simp [hx]))
    show (codeOf d ++ ' ' :: morseJoin (e :: rest)).count ' ' = (d :: e :: rest).length - 1
    rw [List.count_append, h d (by simp), List.count_cons_self, ih]
    simp

theorem morseJoin_count_slash : ∀ ds : List Char,
    (∀ d ∈ ds, (codeOf d).count '/' = 0) →
    (morseJoin ds).count '/' = 0
  | [] => by simp [morseJoin]
  | [d] => by
    intro h
    simp [morseJoin, h d (by simp)]
  | d :: e :: rest => by
    intro h
    have ih := morseJoin_count_slash (e :: rest) (fun x hx => h x (by simp [hx]))
    show (codeOf d ++ ' ' :: morseJoin (e :: rest)).count '/' = 0
    rw [List.count_append, h d (by simp), List.count_cons, ih]
    simp

/-- C2: For every non-negative integer `v`, `_number_to_morse_sequence v`
is, per decimal digit of `v`, exactly that digit's fixed 5-symbol
dot/dash code from the 10-entry `MORSE_DIGITS` table, with the digits'
codes separated by exactly `digits(v) - 1` inter-digit gaps (`' '`) and
followed by exactly one trailing sequence-end gap (`'/'`). -/
theorem morse_encoding_structure (v : ℕ) :
    numberToMorseSequence v
        = (List.intersperse [' '] ((strOfNat v).map codeOf)).flatten ++ ['/'] ∧
    (numberToMorseSequence v).count ' ' = (strOfNat v).length - 1 ∧
    (numberToMorseSequence v).count '/' = 1 ∧
    (numberToMorseSequence v).getLast? = some '/' ∧
    ∀ c ∈ strOfNat v, (codeOf c).length = 5 ∧ ∀ e ∈ codeOf c, e = '.' ∨ e = '-' := by
  have hdig : ∀ c ∈ strOfNat v, (codeOf c).length = 5 ∧
      (∀ e ∈ codeOf c, e = '.' ∨ e = '-') ∧
      (codeOf c).count ' ' = 0 ∧ (codeOf c).count '/' = 0 := by
    intro c hc
    obtain ⟨m, hm, rfl⟩ := strOfNat_mem v c hc
    exact codeOf_digitChar m hm
  refine ⟨?_, ?_, ?_, ?_, ?_⟩
  · unfold numberToMorseSequence
    rw [morseJoin_eq_intersperse]
  · unfold numberToMorseSequence
    rw [List.count_append,
      morseJoin_count_space (strOfNat v) (fun d hd => (hdig d hd).2.2.1)]
    simp
  · unfold numberToMorseSequence
    rw [List.count_append,
      morseJoin_count_slash (strOfNat v) (fun d hd => (hdig d hd).2.2.2)]
    simp
  · unfold numberToMorseSequence
    simp
  · exact fun c hc => ⟨(hdig c hc).1, (hdig c hc).2.1⟩

/-! ## The blink loop's timed trace (`MorseBlinker.run` / `_blink`)

A trace is a list of `(on?, duration)` segments.  `_blink(d)` holds the
LED on for `d` then off for `GAP_SYMBOL`; `' '` and `'/'` sleep with the
LED off; a character matching no branch does nothing. -/

def elementSegs (c : Char) : List (Bool × ℕ) :=
  if c = '.' then [(true, DOT), (false, GAP_SYMBOL)]
  else if c = '-' then [(true, DASH), (false, GAP_SYMBOL)]
  else if c = ' ' then [(false, GAP_LETTER)]
  else if c = '/' then [(false, GAP_WORD)]
  else []

def traceOfElems (s : List Char) : List (Bool × ℕ) :=
  (s.map elementSegs).flatten

/-- Wall-clock duration of one loop element (emission plus trailing gap). -/
def elemDur (c : Char) : ℕ := ((elementSegs c).map Prod.snd).sum

def traceDur (l : List (Bool × ℕ)) : ℕ := (l.map Prod.snd).sum

/-- Durations of the maximal runs of consecutive ON time in a trace. -/
def onRunsAux : ℕ → List (Bool × ℕ) → List ℕ
  | acc, [] => if acc = 0 then [] else [acc]
  | acc, (true, d) :: rest => onRunsAux (acc + d) rest
  | acc, (false, _) :: rest => (if acc = 0 then [] else [acc]) ++ onRunsAux 0 rest

def onRuns (l : List (Bool × ℕ)) : List ℕ := onRunsAux 0 l

/-- The ON-run contribution of a single element. -/
def elemRuns (c : Char) : List ℕ :=
  if c = '.' then [DOT] else if c = '-' then [DASH] else []

theorem onRuns_elem_append (c : Char) (l : List (Bool × ℕ)) :
    onRunsAux 0 (elementSegs c ++ l) = elemRuns c ++ onRunsAux 0 l := by
  by_cases h1 : c = '.'
  · subst h1
    simp [elementSegs, elemRuns, onRunsAux, DOT, GAP_SYMBOL, UNIT]
  · by_cases h2 : c = '-'
    · subst h2
      simp [elementSegs, elemRuns, onRunsAux, DASH, GAP_SYMBOL, UNIT]
    · by_cases h3 : c = ' '
      · subst h3
        simp [elementSegs, elemRuns, onRunsAux]
      · by_cases h4 : c = '/'
        · subst h4
          simp [elementSegs, elemRuns, onRunsAux, h1, h2, h3]
        · simp [elementSegs, elemRuns, onRunsAux, h1, h2, h3, h4]

theorem onRuns_trace_le_dash : ∀ s : List Char,
    ∀ r ∈ onRuns (traceOfElems s), r ≤ DASH
  | [] => by simp [onRuns, traceOfElems, onRunsAux]
  | c :: rest => by
    intro r hr
    have ih := onRuns_trace_le_dash rest
    have hsplit : traceOfElems (c :: rest) = elementSegs c ++ traceOfElems rest := by
      simp [traceOfElems]
    rw [onRuns, hsplit, onRuns_elem_append] at hr
    rcases List.mem_append.mp hr with hmem | hmem
    · unfold elemRuns at hmem
      split_ifs at hmem <;> simp at hmem <;>
        simp [hmem, DOT, DASH, UNIT]
    · exact ih r hmem

/-- C9: For every emitted symbol sequence, the LED is never ON for more
than `DASH = 3×UNIT` continuously: every maximal ON run of the blink
trace of `_number_to_morse_sequence v` lasts at most `DASH`. -/
theorem led_on_at_most_dash (v : ℕ) (r : ℕ)
    (hr : r ∈ onRuns (traceOfElems (numberToMorseSequence v))) :
    r ≤ DASH :=
  onRuns_trace_le_dash (numberToMorseSequence v) r hr

/-- Witness for C9 at `v = 5`: the trace of `"....."` contains a
`DOT`-long ON run, and the theorem bounds it by `DASH`. -/
theorem led_on_at_most_dash_witness :
    DOT ∈ onRuns (traceOfElems (numberToMorseSequence 5)) ∧ DOT ≤ DASH :=
  ⟨by decide, led_on_at_most_dash 5 DOT (by decide)⟩

/-! ## Aborting the loop on `update_number` (`MorseBlinker.run`)

`run` checks `_update_event` before each element.  If the flag is raised
at time `t` while the sequence `s` is being emitted, the elements before
the first check at or after `t` complete, the loop breaks, clears the
flag, sleeps `GAP_WORD`, and then emits the new value's sequence. -/

/-- Time of the flag check before element `k` (elements `0..k-1` done). -/
def checkTime (s : List Char) (k : ℕ) : ℕ := ((s.take k).map elemDur).sum

/-- Total wall-clock duration of emitting the whole sequence. -/
def totalDur (s : List Char) : ℕ := (s.map elemDur).sum

/-- Index of the first flag check at or after time `t` (a flag raised at
`t` during element `k-1` is observed at check `k`). -/
def obsIdx : List Char → ℕ → ℕ
  | [], _ => 0
  | c :: rest, t => if t = 0 then 0 else obsIdx rest (t - elemDur c) + 1

/-- The trace the loop emits when the flag is observed at check `k` of
`s`: the completed prefix, then the `GAP_WORD` pause after the break,
then the new value's sequence. -/
def abortTrace (s sNew : List Char) (k : ℕ) : List (Bool × ℕ) :=
  traceOfElems (s.take k) ++ [(false, GAP_WORD)] ++ traceOfElems sNew

/-- Start time of the first ON segment at or after time `t`. -/
def firstOnAfter (t : ℕ) : List (Bool × ℕ) → ℕ → Option ℕ
  | [], _ => none
  | (b, d) :: rest, now =>
    if b = true ∧ t ≤ now then some now else firstOnAfter t rest (now + d)

theorem GAP_WORD_eq : GAP_WORD = 7 := rfl

theorem checkTime_zero (s : List Char) : checkTime s 0 = 0 := by
  simp [checkTime]

theorem checkTime_succ (c : Char) (rest : List Char) (k : ℕ) :
    checkTime (c :: rest) (k + 1) = elemDur c + checkTime rest k := by
  simp [checkTime, List.take_succ_cons]

theorem totalDur_cons (c : Char) (s : List Char) :
    totalDur (c :: s) = elemDur c + totalDur s := by
  simp [totalDur]

theorem elemDur_le_gap_word (c : Char) : elemDur c ≤ GAP_WORD := by
  unfold elemDur elementSegs
  split_ifs <;> simp [DOT, DASH, GAP_SYMBOL, GAP_LETTER, GAP_WORD, UNIT]

theorem obsIdx_zero (s : List Char) : obsIdx s 0 = 0 := by
  cases s <;> simp [obsIdx]

theorem le_checkTime_obsIdx : ∀ (s : List Char) (t : ℕ), t ≤ totalDur s →
    t ≤ checkTime s (obsIdx s t)
  | [], t => by
    intro h
    simpa [totalDur, checkTime, obsIdx] using h
  | c :: rest, t => by
    intro h
    unfold obsIdx
    split_ifs with h0
    · simp [checkTime, h0]
    · rw [checkTime_succ]
      have hrec := le_checkTime_obsIdx rest (t - elemDur c) (by
        rw [totalDur_cons] at h; omega)
      omega

theorem checkTime_obsIdx_le : ∀ (s : List Char) (t : ℕ),
    checkTime s (obsIdx s t) ≤ t + GAP_WORD
  | [], t => by
    simp [checkTime, obsIdx]
  | c :: rest, t => by
    unfold obsIdx
    split_ifs with h0
    · simp [checkTime]
    · rw [checkTime_succ]
      have hd := elemDur_le_gap_word c
      by_cases hdt : t ≤ elemDur c
      · have ht0 : t - elemDur c = 0 := by omega
        rw [ht0, obsIdx_zero, checkTime_zero]
        omega
      · have hrec := checkTime_obsIdx_le rest (t - elemDur c)
        omega

theorem checkTime_lt_of_lt_obsIdx : ∀ (s : List Char) (t i : ℕ),
    i < obsIdx s t → checkTime s i < t
  | [], t, i => by simp [obsIdx]
  | c :: rest, t, i => by
    intro hi
    unfold obsIdx at hi
    split_ifs at hi with h0
    · omega
    · cases i with
      | zero =>
        rw [checkTime_zero]
        omega
      | succ j =>
        rw [checkTime_succ]
        have := checkTime_lt_of_lt_obsIdx rest (t - elemDur c) j (by omega)
        omega

theorem checkTime_take (s : List Char) (k i : ℕ) (h : i ≤ k) :
    checkTime (s.take k) i = checkTime s i := by
  unfold checkTime
  rw [List.take_take, min_eq_left h]

theorem traceDur_traceOfElems : ∀ es : List Char,
    traceDur (traceOfElems es) = (es.map elemDur).sum
  | [] => by simp [traceDur, traceOfElems]
  | c :: rest => by
    have ih := traceDur_traceOfElems rest
    unfold traceDur traceOfElems at ih ⊢
    simp only [List.map_cons, List.flatten_cons, List.map_append, List.sum_append, List.sum_cons]
    rw [ih]
    rfl

theorem traceDur_take (s : List Char) (k : ℕ) :
    traceDur (traceOfElems (s.take k)) = checkTime s k :=
  traceDur_traceOfElems (s.take k)

theorem firstOnAfter_append_none : ∀ (l r : List (Bool × ℕ)) (t now : ℕ),
    firstOnAfter t l now = none →
    firstOnAfter t (l ++ r) now = firstOnAfter t r (now + traceDur l)
  | [], r, t, now => by
    intro _
    simp [traceDur, firstOnAfter]
  | (b, d) :: l2, r, t, now => by
    intro h
    by_cases hc : b = true ∧ t ≤ now
    · simp [firstOnAfter, hc] at h
    · have h2 : firstOnAfter t l2 (now + d) = none := by
        simpa [firstOnAfter, hc] using h
      have ih := firstOnAfter_append_none l2 r t (now + d) h2
      have harg : now + d + traceDur l2 = now + traceDur ((b, d) :: l2) := by
        simp [traceDur]
        omega
      show firstOnAfter t ((b, d) :: (l2 ++ r)) now = _
      simp only [firstOnAfter, if_neg hc]
      rw [ih, harg]

theorem firstOnAfter_elem_skip (c : Char) (t now : ℕ) (hlt : now < t)
    (l : List (Bool × ℕ)) :
    firstOnAfter t (elementSegs c ++ l) now = firstOnAfter t l (now + elemDur c) := by
  have h1 : ¬ t ≤ now := by omega
  by_cases hc1 : c = '.'
  · subst hc1
    simp [elementSegs, elemDur, firstOnAfter, h1, Nat.add_assoc]
  · by_cases hc2 : c = '-'
    · subst hc2
      simp [elementSegs, elemDur, firstOnAfter, h1, Nat.add_assoc]
    · by_cases hc3 : c = ' '
      · subst hc3
        simp [elementSegs, elemDur, firstOnAfter, h1, Nat.add_assoc]
      · by_cases hc4 : c = '/'
        · subst hc4
          simp [elementSegs, elemDur, firstOnAfter, h1, Nat.add_assoc]
        · simp [elementSegs, elemDur, firstOnAfter, hc1, hc2, hc3, hc4]

theorem firstOnAfter_none_of_checks_lt : ∀ (es : List Char) (t now : ℕ),
    (∀ i, i < es.length → now + checkTime es i < t) →
    firstOnAfter t (traceOfElems es) now = none
  | [], t, now => by
    intro _
    simp [traceOfElems, firstOnAfter]
  | c :: rest, t, now => by
    intro h
    have h0 : now < t := by
      have := h 0 (by simp)
      rw [checkTime_zero] at this
      omega
    have hsplit : traceOfElems (c :: rest) = elementSegs c ++ traceOfElems rest := by
      simp [traceOfElems]
    rw [hsplit, firstOnAfter_elem_skip c t now h0]
    apply firstOnAfter_none_of_checks_lt rest t (now + elemDur c)
    intro i hi
    have := h (i + 1) (by simpa using Nat.succ_lt_succ hi)
    rw [checkTime_succ] at this
    omega

/-- The head of each digit's code, needed to show the new sequence's
first element turns the LED on immediately. -/
theorem codeOf_head (m : ℕ) (hm : m < 10) :
    (codeOf (digitChar m)).head? = some '.' ∨ (codeOf (digitChar m)).head? = some '-' := by
  interval_cases m <;> decide

theorem morseJoin_cons (d : Char) (ds : List Char) :
    ∃ x, morseJoin (d :: ds) = codeOf d ++ x := by
  cases ds with
  | nil => exact ⟨[], by simp [morseJoin]⟩
  | cons e rest => exact ⟨' ' :: morseJoin (e :: rest), rfl⟩

theorem numberToMorseSequence_head (v : ℕ) :
    ∃ c rest, numberToMorseSequence v = c :: rest ∧ (c = '.' ∨ c = '-') := by
  obtain ⟨d, ds, hds⟩ := List.exists_cons_of_ne_nil (strOfNat_ne_nil v)
  obtain ⟨m, hm, hdm⟩ := strOfNat_mem v d (by rw [hds]; exact List.mem_cons_self d ds)
  obtain ⟨x, hx⟩ := morseJoin_cons d ds
  have hhead := codeOf_head m hm
  rcases hcd : codeOf (digitChar m) with _ | ⟨e, tail⟩
  · rw [hcd] at hhead
    simp at hhead
  · rw [hcd] at hhead
    simp only [List.head?_cons] at hhead
    have he : e = '.' ∨ e = '-' := by
      rcases hhead with hh | hh
      · exact Or.inl (Option.some.inj hh)
      · exact Or.inr (Option.some.inj hh)
    refine ⟨e, tail ++ x ++ ['/'], ?_, he⟩
    unfold numberToMorseSequence
    rw [hds, hx, hdm, hcd]
    simp

/-- C3 (amended): if `update_number(vNew)` is called at time `t` (in
`UNIT`s) while the sequence of `v` is being emitted, the next ON event
belongs to `vNew`'s sequence — it is the very start of the re-emission,
`checkTime + GAP_WORD` — and occurs within one element duration plus
the mandatory `GAP_WORD` pause of the update (at most `2×GAP_WORD`
after `t`), not within one symbol duration. -/
theorem update_restart_bound (v vNew t : ℕ)
    (h1 : t ≤ totalDur (numberToMorseSequence v)) :
    firstOnAfter t
        (abortTrace (numberToMorseSequence v) (numberToMorseSequence vNew)
          (obsIdx (numberToMorseSequence v) t)) 0
      = some (checkTime (numberToMorseSequence v) (obsIdx (numberToMorseSequence v) t)
          + GAP_WORD)
    ∧ t ≤ checkTime (numberToMorseSequence v) (obsIdx (numberToMorseSequence v) t)
          + GAP_WORD
    ∧ checkTime (numberToMorseSequence v) (obsIdx (numberToMorseSequence v) t)
          + GAP_WORD ≤ t + GAP_WORD + GAP_WORD := by
  set s := numberToMorseSequence v with hs
  set k := obsIdx s t with hk
  have hO1 : t ≤ checkTime s k := le_checkTime_obsIdx s t h1
  have hO2 : checkTime s k ≤ t + GAP_WORD := checkTime_obsIdx_le s t
  have hnone : firstOnAfter t (traceOfElems (s.take k)) 0 = none := by
    apply firstOnAfter_none_of_checks_lt
    intro i hi
    have hik : i < k := by
      rw [List.length_take] at hi
      omega
    have hlt := checkTime_lt_of_lt_obsIdx s t i hik
    rw [checkTime_take s k i (le_of_lt hik)]
    omega
  have htrace : abortTrace s (numberToMorseSequence vNew) k
      = traceOfElems (s.take k)
        ++ ([(false, GAP_WORD)] ++ traceOfElems (numberToMorseSequence vNew)) := by
    simp [abortTrace]
  have happ := firstOnAfter_append_none (traceOfElems (s.take k))
      ([(false, GAP_WORD)] ++ traceOfElems (numberToMorseSequence vNew)) t 0 hnone
  rw [traceDur_take] at happ
  obtain ⟨c0, rest0, hseq, hc0⟩ := numberToMorseSequence_head vNew
  have hsplit0 : traceOfElems (numberToMorseSequence vNew)
      = elementSegs c0 ++ traceOfElems rest0 := by
    rw [hseq]
    simp [traceOfElems]
  have hfirst : firstOnAfter t
      ([(false, GAP_WORD)] ++ traceOfElems (numberToMorseSequence vNew))
      (0 + checkTime s k) = some (checkTime s k + GAP_WORD) := by
    rw [hsplit0]
    have hstep : firstOnAfter t
        ((false, GAP_WORD) :: (elementSegs c0 ++ traceOfElems rest0))
        (0 + checkTime s k)
      = firstOnAfter t (elementSegs c0 ++ traceOfElems rest0)
          (0 + checkTime s k + GAP_WORD) := by
      simp [firstOnAfter]
    rw [List.singleton_append, hstep]
    have hle : t ≤ 0 + checkTime s k + GAP_WORD := by omega
    rcases hc0 with h | h <;> subst h <;>
      simp [elementSegs, firstOnAfter, hle] <;> omega
  refine ⟨?_, by omega, by omega⟩
  rw [htrace, happ, hfirst]

/-- C3 counterexample: with value `0` on the wire (five dashes then the
word gap, element duration 4 units) and an update to `5` raised at `t = 1` during
the first dash, the next ON event is at time 11 — a latency of 10 units,
which exceeds every single-symbol duration (dash emission `DASH +
GAP_SYMBOL = 4`, longest symbol `GAP_WORD = 7`): the mandatory
`GAP_WORD` pause after the break makes "within one symbol duration"
false. -/
theorem update_not_within_one_symbol :
    firstOnAfter 1 (abortTrace (numberToMorseSequence 0) (numberToMorseSequence 5)
        (obsIdx (numberToMorseSequence 0) 1)) 0 = some 11
    ∧ 11 - 1 > GAP_WORD
    ∧ 11 - 1 > DASH + GAP_SYMBOL := by decide

/-- Witness for C3 (amended) at `v = 0`, `vNew = 5`, `t = 1`. -/
theorem update_restart_bound_witness :
    1 ≤ totalDur (numberToMorseSequence 0) ∧
    (firstOnAfter 1
        (abortTrace (numberToMorseSequence 0) (numberToMorseSequence 5)
          (obsIdx (numberToMorseSequence 0) 1)) 0
      = some (checkTime (numberToMorseSequence 0) (obsIdx (numberToMorseSequence 0) 1)
          + GAP_WORD)
    ∧ 1 ≤ checkTime (numberToMorseSequence 0) (obsIdx (numberToMorseSequence 0) 1)
          + GAP_WORD
    ∧ checkTime (numberToMorseSequence 0) (obsIdx (numberToMorseSequence 0) 1)
          + GAP_WORD ≤ 1 + GAP_WORD + GAP_WORD) :=
  ⟨by decide, update_restart_bound 0 5 1 (by decide)⟩

/-! ## Tally rendering (`EPaperDisplay.display_tally`)

`img_land` is created as `(self.height, self.width) = (122, 250)`; a
render is modelled as the list of `draw.line` calls it performs. -/

def IMG_W : ℕ := 122

def IMG_H : ℕ := 250

def H_STROKE : ℕ := 40

def S_GAP : ℕ := 6

def G_GAP : ℕ := 10

def ROW_GAP : ℕ := 8

inductive StrokeKind
  | bar
  | diagonal
  | single
deriving DecidableEq, Repr

/-- One `draw.line((x1, y1, x2, y2), fill=0, width=2)` call. -/
structure TallyStroke where
  kind : StrokeKind
  x1 : ℕ
  y1 : ℕ
  x2 : ℕ
  y2 : ℕ
deriving DecidableEq, Repr

/-- The 5-group: four vertical bars and the diagonal across them. -/
def groupStrokes (x y : ℕ) : List TallyStroke :=
  ((List.range 4).map fun i =>
    ⟨StrokeKind.bar, x + i * S_GAP, y, x + i * S_GAP, y + H_STROKE⟩)
    ++ [⟨StrokeKind.diagonal, x, y, x + 3 * S_GAP, y + H_STROKE⟩]

/-- The `for _ in range(remaining)` single strokes, each advancing the
cursor by `S_GAP`. -/
def singleStrokes (remaining x y : ℕ) : List TallyStroke :=
  (List.range remaining).map fun j =>
    ⟨StrokeKind.single, x + j * S_GAP, y, x + j * S_GAP, y + H_STROKE⟩

/-- The `while remaining > 0 and y + H_STROKE < img_land.height` loop.
A group advances the cursor by `4*S_GAP + G_GAP` and then wraps to a new
row when `x + 4*S_GAP > img_land.width`; fewer than five remaining draws
single strokes after which `remaining = 0` ends the loop. -/
def tallyLoop : ℕ → ℕ → ℕ → List TallyStroke
  | 0, _, _ => []
  | r + 5, x, y =>
    if y + H_STROKE < IMG_H then
      groupStrokes x y ++
        (if x + 4 * S_GAP + G_GAP + 4 * S_GAP > IMG_W then
          tallyLoop r 0 (y + H_STROKE + ROW_GAP)
        else
          tallyLoop r (x + 4 * S_GAP + G_GAP) y)
    else []
  | r + 1, x, y =>
    if y + H_STROKE < IMG_H then singleStrokes (r + 1) x y else []

/-- `display_tally(number)`: all strokes drawn on `img_land`.  It is a
total function — drawing saturates (stops) at the bottom of the panel
instead of failing. -/
def display_tally (number : ℕ) : List TallyStroke := tallyLoop number 0 0

theorem tallyLoop_in_bounds : ∀ (remaining x y : ℕ),
    x + 4 * S_GAP ≤ IMG_W → (H_STROKE + ROW_GAP) ∣ y →
    ∀ st ∈ tallyLoop remaining x y,
      st.x1 < IMG_W ∧ st.x2 < IMG_W ∧ st.y2 < IMG_H ∧ st.y1 ≤ 192 := by
  intro remaining x y
  induction remaining, x, y using tallyLoop.induct with
  | case1 x y =>
    intro _ _ st hst
    simp [tallyLoop] at hst
  | case2 r x y hcond ih1 ih2 =>
    intro hx hy st hst
    simp only [tallyLoop, if_pos hcond, List.mem_append] at hst
    have hy192 : y ≤ 192 := by
      obtain ⟨q, rfl⟩ := hy
      simp only [H_STROKE, ROW_GAP, IMG_H] at hcond ⊢
      omega
    rcases hst with hst | hst
    · simp only [groupStrokes, List.mem_append, List.mem_map, List.mem_range,
        List.mem_singleton] at hst
      rcases hst with ⟨i, hi, rfl⟩ | rfl <;>
        simp_all [S_GAP, H_STROKE, IMG_W, IMG_H] <;> omega
    · split_ifs at hst with hwrap
      · refine ih1 (by simp [S_GAP, IMG_W]) ?_ st hst
        obtain ⟨q, rfl⟩ := hy
        exact ⟨q + 1, by ring⟩
      · refine ih2 ?_ hy st hst
        simp only [S_GAP, G_GAP, IMG_W] at hwrap ⊢
        omega
  | case3 r x y hcond =>
    intro _ _ st hst
    simp [tallyLoop, hcond] at hst
  | case4 r x y hr4 hcond =>
    intro hx hy st hst
    have hr3 : r ≤ 3 := by
      by_contra hgt
      exact hr4 (r - 4) (by omega)
    have hy192 : y ≤ 192 := by
      obtain ⟨q, rfl⟩ := hy
      simp only [H_STROKE, ROW_GAP, IMG_H] at hcond ⊢
      omega
    simp only [tallyLoop, if_pos hcond, singleStrokes, List.mem_map,
      List.mem_range] at hst
    obtain ⟨j, hj, rfl⟩ := hst
    simp only [S_GAP, H_STROKE, IMG_W, IMG_H] at hx ⊢
    simp only [H_STROKE, IMG_H] at hcond
    refine ⟨by omega, by omega, by omega, by omega⟩
  | case5 r x y hr4 hcond =>
    intro _ _ st hst
    simp [tallyLoop, hcond] at hst

/-- C7: in tally mode every stroke ever drawn stays inside the panel:
the cursor wraps before a group or single stroke would cross the right
edge (`x`-coordinates stay below `IMG_W = 122`), and drawing saturates
at the bottom (`y`-extents stay below `IMG_H = 250`, row starts bounded
by `192`, i.e. at most five rows) — `display_tally` is total, so large
values truncate silently instead of failing. -/
theorem tally_no_overflow (n : ℕ) (st : TallyStroke) (hst : st ∈ display_tally n) :
    st.x1 < IMG_W ∧ st.x2 < IMG_W ∧ st.y2 < IMG_H ∧ st.y1 ≤ 192 :=
  tallyLoop_in_bounds n 0 0 (by simp [S_GAP, IMG_W]) (Dvd.intro 0 rfl) st hst

/-- Witness for C7 at `n = 1`: the single stroke at the origin. -/
theorem tally_no_overflow_witness :
    (⟨StrokeKind.single, 0, 0, 0, 40⟩ : TallyStroke) ∈ display_tally 1 ∧
    ((⟨StrokeKind.single, 0, 0, 0, 40⟩ : TallyStroke).x1 < IMG_W ∧
     (⟨StrokeKind.single, 0, 0, 0, 40⟩ : TallyStroke).x2 < IMG_W ∧
     (⟨StrokeKind.single, 0, 0, 0, 40⟩ : TallyStroke).y2 < IMG_H ∧
     (⟨StrokeKind.single, 0, 0, 0, 40⟩ : TallyStroke).y1 ≤ 192) :=
  ⟨by decide, tally_no_overflow 1 ⟨StrokeKind.single, 0, 0, 0, 40⟩ (by decide)⟩

/-- C8: the tally reference outputs.  `display_tally 0` draws nothing;
`display_tally 7` draws exactly one five-group (four parallel bars plus
one diagonal crossing them) followed by exactly two single strokes. -/
theorem tally_reference_outputs :
    display_tally 0 = []
    ∧ display_tally 7 =
        [⟨StrokeKind.bar, 0, 0, 0, 40⟩, ⟨StrokeKind.bar, 6, 0, 6, 40⟩,
         ⟨StrokeKind.bar, 12, 0, 12, 40⟩, ⟨StrokeKind.bar, 18, 0, 18, 40⟩,
         ⟨StrokeKind.diagonal, 0, 0, 18, 40⟩,
         ⟨StrokeKind.single, 34, 0, 34, 40⟩, ⟨StrokeKind.single, 40, 0, 40, 40⟩]
    ∧ ((display_tally 7).countP fun st => decide (st.kind = StrokeKind.diagonal)) = 1
    ∧ ((display_tally 7).countP fun st => decide (st.kind = StrokeKind.bar)) = 4
    ∧ ((display_tally 7).countP fun st => decide (st.kind = StrokeKind.single)) = 2 := by
  decide

/-! ## Counter + QR rendering (`EPaperDisplay.display_counter_and_qr`)

`W = epd.width = 122`, `H = epd.height = 250`.  The PIL font metric
`draw.textsize` is an external collaborator, modelled as an opaque
`measure` parameter mapping `(text, point size) ↦ (width, height)`;
Python's `//` is `Int.fdiv`. -/

def EPD_WIDTH : ℕ := 122

def EPD_HEIGHT : ℕ := 250

/-- What one `epd.display(epd.getbuffer(img.rotate(...)))` call received. -/
structure PanelFrame where
  rotationDegrees : ℕ
  includesQr : Bool
  qrX : ℤ
  qrY : ℤ
deriving DecidableEq, Repr

/-- The observable effects of one `display_counter_and_qr` call. -/
structure QrRenderResult where
  numText : List Char
  smallFontSize : ℕ
  bigFontSize : ℕ
  l1X : ℤ
  l1Y : ℤ
  rowX : ℤ
  rowY : ℤ
  l3X : ℤ
  l3Y : ℤ
  warnedQrMissing : Bool
  handedToPanel : Option PanelFrame
deriving DecidableEq, Repr

/-- `display_counter_and_qr(number)`.  The trailing `img.rotate(180)` and
`epd.display(...)` statements sit inside `if qr:` in the source, which is
mirrored here: `handedToPanel` is `none` whenever the QR file is
missing. -/
def display_counter_and_qr (measure : List Char → ℕ → ℕ × ℕ)
    (iconSize : Option (ℕ × ℕ)) (qrSize : Option (ℕ × ℕ)) (number : ℕ) :
    QrRenderResult :=
  let top_h := EPD_HEIGHT / 2
  let l1_m := measure "HAN SIDO".toList 14
  let l3_m := measure "LEVANTADAS".toList 14
  let num_text := strOfNat number
  let num_m := measure num_text 32
  let icon_h := match iconSize with | some s => s.2 | none => 0
  let gap : ℕ := match iconSize with | some _ => 4 | none => 0
  let icon_w := match iconSize with | some s => s.1 | none => 0
  let row_w := num_m.1 + gap + icon_w
  let row_h := max num_m.2 icon_h
  let line_gap := 4
  let total_h := l1_m.2 + line_gap + row_h + line_gap + l3_m.2
  let y0 : ℤ := Int.fdiv ((top_h : ℤ) - (total_h : ℤ)) 2
  let l1_x : ℤ := Int.fdiv ((EPD_WIDTH : ℤ) - (l1_m.1 : ℤ)) 2
  let y1 : ℤ := y0 + l1_m.2 + line_gap
  let row_x : ℤ := Int.fdiv ((EPD_WIDTH : ℤ) - (row_w : ℤ)) 2
  let y2 : ℤ := y1 + row_h + line_gap
  let l3_x : ℤ := Int.fdiv ((EPD_WIDTH : ℤ) - (l3_m.1 : ℤ)) 2
  let base : QrRenderResult :=
    { numText := num_text, smallFontSize := 14, bigFontSize := 32,
      l1X := l1_x, l1Y := y0, rowX := row_x, rowY := y1, l3X := l3_x, l3Y := y2,
      warnedQrMissing := false, handedToPanel := none }
  match qrSize with
  | none =>
    { base with warnedQrMissing := true, handedToPanel := none }
  | some (qw, qh) =>
    let max_qr_dim := min EPD_WIDTH (EPD_HEIGHT - top_h)
    let qsz := if qw > max_qr_dim ∨ qh > max_qr_dim then (max_qr_dim, max_qr_dim) else (qw, qh)
    let qr_x : ℤ := Int.fdiv ((EPD_WIDTH : ℤ) - (qsz.1 : ℤ)) 2
    let qr_y : ℤ := (top_h : ℤ) + Int.fdiv ((EPD_HEIGHT : ℤ) - (top_h : ℤ) - (qsz.2 : ℤ)) 2
    let frame : PanelFrame :=
      { rotationDegrees := 180, includesQr := true, qrX := qr_x, qrY := qr_y }
    { base with warnedQrMissing := false, handedToPanel := some frame }

/-- A concrete instance of the opaque `draw.textsize` metric, used only
to evaluate the render at specific inputs: monospace glyphs as wide and
tall as the point size. -/
def monoMeasure (t : List Char) (size : ℕ) : ℕ × ℕ := (size * t.length, size)

/-- C1 (code bug): when the QR bitmap is unavailable the source prints
the warning and keeps composing, but the rotate-and-display call is
inside `if qr:`, so no frame — not even the text-only layout — is handed
to the panel, for every counter value, icon state, and font metric. -/
theorem qr_missing_skips_display (measure : List Char → ℕ → ℕ × ℕ)
    (iconSize : Option (ℕ × ℕ)) (number : ℕ) :
    (display_counter_and_qr measure iconSize none number).warnedQrMissing = true
    ∧ (display_counter_and_qr measure iconSize none number).handedToPanel = none :=
  ⟨rfl, rfl⟩

/-- C4 (amended): `display_counter_and_qr` performs no shrink-to-fit at
all: the number is always drawn with the fixed 32-point font and the
labels with the fixed 14-point font, whatever the measured text width. -/
theorem font_sizes_fixed (measure : List Char → ℕ → ℕ × ℕ)
    (iconSize qrSize : Option (ℕ × ℕ)) (number : ℕ) :
    (display_counter_and_qr measure iconSize qrSize number).bigFontSize = 32
    ∧ (display_counter_and_qr measure iconSize qrSize number).smallFontSize = 14 := by
  unfold display_counter_and_qr
  rcases qrSize with _ | ⟨qw, qh⟩ <;> exact ⟨rfl, rfl⟩

/-- C4 counterexample: under the monospace metric the decimal width of
`123456789` at the 32-point font is `288 > 122 = EPD_WIDTH`, yet the
chosen font size stays 32 — it is not decreased at all (and the render
width does not fit), contradicting the claimed shrink-until-fit-or-floor
behaviour. -/
theorem font_size_not_shrunk :
    (monoMeasure (strOfNat 123456789) 32).1 > EPD_WIDTH
    ∧ (display_counter_and_qr monoMeasure (some (24, 24)) (some (118, 118))
        123456789).bigFontSize = 32 := by
  decide

/-! ## Controller (`raspberry/controller.py`) -/

def LIGHT_PIN : ℕ := 17

def STEPPER_PINS : List ℕ := [18, 23, 24, 25]

def STEPS_PER_REVOLUTION : ℕ := 2048

/-- One `stepper_position = (stepper_position + direction) %
STEPS_PER_REVOLUTION` update; Python's `%` with a positive modulus is
`Int.emod`. -/
def stepOnce (direction : ℤ) (pos : ℕ) : ℕ :=
  (((pos : ℤ) + direction) % (STEPS_PER_REVOLUTION : ℤ)).toNat

/-- `direction = 1 if self.gpio.stepper_position < STEPS_PER_REVOLUTION // 2 else -1`. -/
def stepper_direction (pos : ℕ) : ℤ :=
  if pos < STEPS_PER_REVOLUTION / 2 then 1 else -1

/-- `activate_stepper`: `STEPS_PER_REVOLUTION // 2` discrete steps in the
direction chosen once from the current position. -/
def activate_stepper (pos : ℕ) : ℕ :=
  (stepOnce (stepper_direction pos))^[STEPS_PER_REVOLUTION / 2] pos

/-- The successive stored positions during one `activate_stepper` call
(the position is updated after every single step, before `_step_sequence`
is called). -/
def stepper_positions (pos : ℕ) : List ℕ :=
  (List.range (STEPS_PER_REVOLUTION / 2)).map
    fun i => (stepOnce (stepper_direction pos))^[i + 1] pos

/-- The `sequence` table of `_step_sequence`. -/
def step_sequence_table : List (List ℕ) :=
  [[1, 0, 0, 0], [0, 1, 0, 0], [0, 0, 1, 0], [0, 0, 0, 1]]

/-- `_step_sequence`: the four phase-pin values written, selected by
`stepper_position % 4`. -/
def step_sequence (pos : ℕ) : List ℕ :=
  step_sequence_table.getD (pos % 4) []

theorem stepOnce_forward (p : ℕ) (hp : p + 1 < 2048) : stepOnce 1 p = p + 1 := by
  unfold stepOnce STEPS_PER_REVOLUTION
  rw [Int.emod_eq_of_lt (by omega) (by omega)]
  omega

theorem stepOnce_backward (p : ℕ) (hp1 : 1 ≤ p) (hp2 : p < 2048) :
    stepOnce (-1) p = p - 1 := by
  unfold stepOnce STEPS_PER_REVOLUTION
  rw [Int.emod_eq_of_lt (by omega) (by omega)]
  omega

theorem iterate_stepOnce_forward : ∀ (k p : ℕ), p + k ≤ 2047 →
    (stepOnce 1)^[k] p = p + k
  | 0, p => by simp
  | k + 1, p => by
    intro h
    rw [Function.iterate_succ_apply, stepOnce_forward p (by omega),
      iterate_stepOnce_forward k (p + 1) (by omega)]
    omega

theorem iterate_stepOnce_backward : ∀ (k p : ℕ), k ≤ p → p < 2048 →
    (stepOnce (-1))^[k] p = p - k
  | 0, p => by simp
  | k + 1, p => by
    intro h1 h2
    rw [Function.iterate_succ_apply, stepOnce_backward p (by omega) h2,
      iterate_stepOnce_backward k (p - 1) (by omega) (by omega)]
    omega

theorem activate_stepper_eq (p : ℕ) (hp : p < 2048) :
    activate_stepper p = if p < 1024 then p + 1024 else p - 1024 := by
  have h2 : STEPS_PER_REVOLUTION / 2 = 1024 := rfl
  unfold activate_stepper stepper_direction
  rw [h2]
  split_ifs with h
  · exact iterate_stepOnce_forward 1024 p (by omega)
  · exact iterate_stepOnce_backward 1024 p (by omega) hp

/-- C5: from any starting position, two consecutive `activate_stepper`
calls return the stepper to its original position — each call makes
`STEPS_PER_REVOLUTION / 2` discrete steps, forward from the first half
of the range and in reverse otherwise, so the two calls sweep in
opposite directions. -/
theorem stepper_double_activate (p : ℕ) (hp : p < STEPS_PER_REVOLUTION) :
    activate_stepper (activate_stepper p) = p
    ∧ stepper_direction (activate_stepper p) = - stepper_direction p := by
  have hp2 : p < 2048 := hp
  have h1 := activate_stepper_eq p hp2
  by_cases h : p < 1024
  · rw [h1, if_pos h]
    have h2 := activate_stepper_eq (p + 1024) (by omega)
    rw [h2, if_neg (by omega)]
    refine ⟨by omega, ?_⟩
    simp only [stepper_direction, STEPS_PER_REVOLUTION]
    norm_num
    split_ifs <;> omega
  · rw [h1, if_neg h]
    have h2 := activate_stepper_eq (p - 1024) (by omega)
    rw [h2, if_pos (by omega)]
    refine ⟨by omega, ?_⟩
    simp only [stepper_direction, STEPS_PER_REVOLUTION]
    norm_num
    split_ifs <;> omega

/-- Witness for C5 at `p = 5`. -/
theorem stepper_double_activate_witness :
    5 < STEPS_PER_REVOLUTION
    ∧ (activate_stepper (activate_stepper 5) = 5
      ∧ stepper_direction (activate_stepper 5) = - stepper_direction 5) :=
  ⟨by decide, stepper_double_activate 5 (by decide)⟩

/-- C10: after every single step taken during `activate_stepper`, the
written phase pattern energizes exactly one of the four stepper pins,
and which pin is high is a pure function of the absolute position modulo
4 — so phase alignment is preserved across separate commands and across
an interruption mid-rotation. -/
theorem step_sequence_one_hot (p : ℕ) (hp : p < STEPS_PER_REVOLUTION)
    (q : ℕ) (hq : q ∈ stepper_positions p) :
    (step_sequence q).count 1 = 1 ∧ (step_sequence q).count 0 = 3
    ∧ (step_sequence q).length = 4
    ∧ step_sequence q = step_sequence (q % 4) := by
  have h4 : q % 4 < 4 := Nat.mod_lt _ (by norm_num)
  have hmm : q % 4 % 4 = q % 4 := Nat.mod_eq_of_lt h4
  unfold step_sequence
  rw [hmm]
  set r := q % 4 with hr
  clear_value r
  interval_cases r <;> exact ⟨by decide, by decide, by decide, by decide⟩

/-- Witness for C10 at `p = 0`, first stored position `q = 1`. -/
theorem step_sequence_one_hot_witness :
    (0 < STEPS_PER_REVOLUTION ∧ 1 ∈ stepper_positions 0)
    ∧ ((step_sequence 1).count 1 = 1 ∧ (step_sequence 1).count 0 = 3
      ∧ (step_sequence 1).length = 4
      ∧ step_sequence 1 = step_sequence (1 % 4)) := by
  have hmem : 1 ∈ stepper_positions 0 := by
    unfold stepper_positions
    refine List.mem_map.mpr ⟨0, List.mem_range.mpr (by decide), ?_⟩
    decide
  exact ⟨⟨by decide, hmem⟩, step_sequence_one_hot 0 (by decide) 1 hmem⟩

/-! ## The actuation worker (`Controller.process_actions`)

The queue is drained with `get(timeout=1)`; on timeout the handler
`except Queue.Empty: continue` is meant to keep the loop alive. -/

inductive ActionType
  | toggleLight
  | activateStepper
deriving DecidableEq, Repr

inductive WorkerStep
  | executed (a : ActionType)
  | timedOut
  | crashed (exc : String)
deriving DecidableEq, Repr

/-- Modelled from Python 3 semantics (outside this repository's code):
the class `queue.Queue` — imported by `from queue import Queue` — has no
attribute `Empty` (the `Empty` exception lives at module level), so
evaluating the expression `Queue.Empty` raises `AttributeError`. -/
def queueClassHasEmptyAttr : Bool := false

/-- One iteration of `Controller.process_actions` with `running = True`:
an action arriving within the 1-second wait is executed in arrival
order; on an empty-queue timeout, `queue.Empty` is raised and the
`except Queue.Empty:` clause is evaluated — it continues the loop only
if the attribute exists, otherwise the evaluation itself raises
`AttributeError`, which propagates and terminates the worker thread. -/
def process_actions_step (queue : List ActionType) : WorkerStep × List ActionType :=
  match queue with
  | a :: rest => (WorkerStep.executed a, rest)
  | [] =>
    if queueClassHasEmptyAttr then (WorkerStep.timedOut, [])
    else (WorkerStep.crashed "AttributeError", [])

/-- C6 (code bug): the first empty-queue timeout does not continue the
loop — evaluating `Queue.Empty` raises `AttributeError` and the worker
thread dies while `running` is still true; commands are consumed
strictly in arrival order only while the queue stays non-empty. -/
theorem empty_queue_timeout_crashes :
    process_actions_step [] = (WorkerStep.crashed "AttributeError", [])
    ∧ ∀ (a : ActionType) (rest : List ActionType),
        process_actions_step (a :: rest) = (WorkerStep.executed a, rest) :=
  ⟨rfl, fun _ _ => rfl⟩

end SP
